import Mathlib

/-!
Verification of the Cognit study-planner core against its specification.

The data model is taken from `frontend/src/types` (TypeScript interfaces) and
the SQL schema (`study_plans`, `study_plan_tasks`).  Frontend logic is embedded
from the TSX sources (`WeekCard.tsx`, the generator page's replace flow).
Backend Python modules (`backend/models.py`, `backend/database.py`,
`backend/crew_manager.py`, `backend/main.py`) are referenced by the repository
documentation but are not part of the source tree; where a property depends on
them, the corresponding definition is modelled from the specification and is
marked as such in its doc comment.
-/

namespace Cognit

/-- Decidable equality for results, so that runs of the embedded operations can
be checked on concrete inputs. -/
instance {ε α : Type} [DecidableEq ε] [DecidableEq α] : DecidableEq (Except ε α) := fun x y =>
  match x, y with
  | .ok a, .ok b => decidable_of_iff (a = b) (by simp)
  | .ok _, .error _ => isFalse (by simp)
  | .error _, .ok _ => isFalse (by simp)
  | .error e, .error f => decidable_of_iff (e = f) (by simp)

/-- A learning resource, from the `Resource` interface in `frontend/src/types`. -/
structure Resource where
  title : String
  url : String
  rtype : String
deriving DecidableEq

/-- One week's milestone, from the `Milestone` interface in `frontend/src/types`. -/
structure Milestone where
  week : Int
  title : String
  objectives : List String
  resources : List Resource
  daily_tasks : List String
deriving DecidableEq

/-- A study plan, from the `StudyPlan` interface in `frontend/src/types`. -/
structure StudyPlan where
  goal : String
  weeks : Int
  milestones : List Milestone
deriving DecidableEq

/-- A persisted plan row, from the `study_plans` table in the SQL schema. -/
structure PlanRow where
  id : Nat
  user_id : Nat
  goal : String
  weeks : Int
deriving DecidableEq

/-- A persisted task row, from the `study_plan_tasks` table in the SQL schema.
Timestamps are abstracted as natural numbers. -/
structure TaskRow where
  id : Nat
  study_plan_id : Nat
  week_number : Int
  day_number : Nat
  task_text : String
  is_completed : Bool
  completed_at : Option Nat
deriving DecidableEq

/-- Per-week progress percentage, from `WeekCard.tsx` lines 31-33:
`const completedCount = tasks.filter(t => t.is_completed).length;`
`const progress = tasks.length > 0 ? (completedCount / tasks.length) * 100 : 0;`
Arithmetic is modelled over the rationals. -/
def weekProgress (tasks : List TaskRow) : ℚ :=
  let completedCount := (tasks.filter (fun t => t.is_completed)).length
  if tasks.length > 0 then ((completedCount : ℚ) / (tasks.length : ℚ)) * 100 else 0

/-- The case-insensitive comparison key of a goal string, as computed by SQL
`LOWER(goal)`: the character sequence lower-cased. -/
def lowerKey (s : String) : List Char :=
  s.data.map Char.toLower

/-- Whether a plan row occupies the (owner, case-insensitive goal, weeks) slot,
the dedup key used by `check_existing_plan` (quoted in ARCHITECTURE.md) and by
the `idx_study_plans_user_goal` index on `(user_id, LOWER(goal))`. -/
def slotMatch (p : PlanRow) (uid : Nat) (goal : String) (weeks : Int) : Bool :=
  p.user_id = uid && lowerKey p.goal = lowerKey goal && p.weeks = weeks

/-- Whether the owner has any plan for the (goal, weeks) slot. -/
def ownerHasSlot (db : List PlanRow) (uid : Nat) (goal : String) (weeks : Int) : Bool :=
  db.any (fun p => slotMatch p uid goal weeks)

/-- Modelled from the spec: `check_existing_plan(user_id, goal, weeks)` of
`backend/database.py` (absent from the source tree; its SQL is quoted in
ARCHITECTURE.md) - the first plan of the owner whose goal matches
case-insensitively and whose weeks match exactly. -/
def check_existing_plan (db : List PlanRow) (uid : Nat) (goal : String) (weeks : Int) :
    Option PlanRow :=
  db.find? (fun p => slotMatch p uid goal weeks)

/-- Result of a save request, from the `SavePlanResponse` interface:
`plan_id` and the `exists` duplicate flag. -/
structure SaveOutcome where
  plan_id : Nat
  existsFlag : Bool
deriving DecidableEq

/-- Modelled from the spec: the save operation of `backend/main.py` /
`backend/database.py` (absent from the source tree).  The duplicate check runs
before any insert; on a duplicate the original plan's id is returned with
`exists = true` and no row is inserted, otherwise a fresh row is inserted. -/
def save_plan (db : List PlanRow) (uid : Nat) (goal : String) (weeks : Int) (freshId : Nat) :
    List PlanRow × SaveOutcome :=
  match check_existing_plan db uid goal weeks with
  | some p => (db, ⟨p.id, true⟩)
  | none => (db ++ [⟨freshId, uid, goal, weeks⟩], ⟨freshId, false⟩)

/-- `delete_study_plan(plan_id, user_id)` as quoted in ARCHITECTURE.md:
deletes the row only if it belongs to the user. -/
def delete_study_plan (db : List PlanRow) (pid : Nat) (uid : Nat) : List PlanRow :=
  db.filter (fun p => !(p.id = pid && p.user_id = uid))

/-- The replace flow of `handleConfirmReplace` (generator page, part_001
lines 129-168): first `deleteStudyPlan(existingPlanId)`, then a separate
`savePlan(goal, weeks, plan)` call.  `saveSucceeds` models whether the second
HTTP call succeeds; when it fails the flow only reports an error, it does not
restore the deleted plan. -/
def handleConfirmReplace (db : List PlanRow) (uid : Nat) (existingPlanId : Nat)
    (goal : String) (weeks : Int) (freshId : Nat) (saveSucceeds : Bool) : List PlanRow :=
  let db1 := delete_study_plan db existingPlanId uid
  if saveSucceeds then (save_plan db1 uid goal weeks freshId).1 else db1

/-- Validation failure kinds, from the spec's `ValidationError` taxonomy. -/
inductive ValidationError where
  | emptyGoal
  | weeksMismatch
  | noMilestones
  | weekOutOfRange
  | weeksNotContiguous
deriving DecidableEq

/-- The week numbers of a plan's milestones, in milestone order. -/
def planWeeks (p : StudyPlan) : List Int :=
  p.milestones.map (fun m => m.week)

/-- Modelled from the spec: the plan validator of `backend/models.py` (absent
from the source tree; only its class skeleton is quoted in ARCHITECTURE.md).
Checks, in the spec's order: goal non-empty; weeks equals the requested weeks;
milestones non-empty; every milestone week in `[1, weeks]`; the set of
milestone weeks equals `{1..weeks}` with no duplicates or gaps.  Field
presence (title, objectives, resources, daily_tasks) is enforced by the typed
model itself.  On success the plan is returned unchanged. -/
def validatePlan (requestedWeeks : Int) (p : StudyPlan) : Except ValidationError StudyPlan :=
  if p.goal = "" then .error .emptyGoal
  else if p.weeks ≠ requestedWeeks then .error .weeksMismatch
  else if p.milestones = [] then .error .noMilestones
  else if ¬ (∀ m ∈ p.milestones, 1 ≤ m.week ∧ m.week ≤ p.weeks) then .error .weekOutOfRange
  else if ¬ ((planWeeks p).Nodup ∧ (planWeeks p).toFinset = Finset.Icc 1 p.weeks) then
    .error .weeksNotContiguous
  else .ok p

/-- The dedup key of the `study_plan_tasks` table:
`UNIQUE(study_plan_id, week_number, day_number, task_text)`. -/
def taskKey (t : TaskRow) : Nat × Int × Nat × String :=
  (t.study_plan_id, t.week_number, t.day_number, t.task_text)

/-- Whether some row of the table already carries the given dedup key. -/
def hasKey (db : List TaskRow) (k : Nat × Int × Nat × String) : Bool :=
  db.any (fun u => taskKey u = k)

/-- Modelled from the spec: a task insert under the `UNIQUE(study_plan_id,
week_number, day_number, task_text)` constraint of the SQL schema -
materialization must be idempotent under this key, so an insert whose key is
already present leaves the table unchanged. -/
def insertTask (db : List TaskRow) (t : TaskRow) : List TaskRow :=
  if hasKey db (taskKey t) then db else db ++ [t]

/-- Modelled from the spec: the task rows generated for one milestone - each
entry of `daily_tasks` becomes one row tagged with the milestone's week and a
day number assigned sequentially starting at 1 within the week. -/
def milestoneTasks (pid : Nat) (m : Milestone) : List TaskRow :=
  m.daily_tasks.enum.map (fun e => ⟨0, pid, m.week, e.1 + 1, e.2, false, none⟩)

/-- All task rows a plan materializes to. -/
def planTasks (plan : StudyPlan) (pid : Nat) : List TaskRow :=
  (plan.milestones.map (milestoneTasks pid)).flatten

/-- Modelled from the spec: `materialize(plan, savedPlanId)` of the backend
(absent from the source tree) - inserts every generated task row under the
uniqueness key. -/
def materialize (plan : StudyPlan) (pid : Nat) (db : List TaskRow) : List TaskRow :=
  (planTasks plan pid).foldl insertTask db

/-- Whether week `w` contains at least one incomplete task. -/
def weekIncomplete (tasks : List TaskRow) (w : Int) : Bool :=
  tasks.any (fun t => t.week_number = w && !t.is_completed)

/-- `n` consecutive week numbers starting at `k`, ascending. -/
def weeksFrom (k : Int) : Nat → List Int
  | 0 => []
  | n + 1 => k :: weeksFrom (k + 1) n

/-- The week numbers `1..weeks` in ascending order. -/
def weeksList (weeks : Int) : List Int :=
  weeksFrom 1 weeks.toNat

/-- First week of the given list containing an incomplete task. -/
def firstIncompleteWeek (tasks : List TaskRow) : List Int → Option Int
  | [] => none
  | w :: ws => if weekIncomplete tasks w then some w else firstIncompleteWeek tasks ws

/-- Modelled from the spec: `current_week` of the completion statistics
(`backend/main.py`, absent from the source tree) - the lowest week of
`1..weeks` containing an incomplete task, and `weeks + 1` when none does. -/
def currentWeek (tasks : List TaskRow) (weeks : Int) : Int :=
  (firstIncompleteWeek tasks (weeksList weeks)).getD (weeks + 1)

/-- Whether every task of week `w` is completed. -/
def weekComplete (tasks : List TaskRow) (w : Int) : Bool :=
  tasks.all (fun t => !(t.week_number = w) || t.is_completed)

/-- Modelled from the spec: `completed_weeks` - the number of weeks of
`1..weeks` whose tasks are all completed. -/
def completedWeeksCount (tasks : List TaskRow) (weeks : Int) : Nat :=
  ((weeksList weeks).filter (fun w => weekComplete tasks w)).length

/-- Derived completion statistics, from the `CompletionStats` interface in
`frontend/src/types`.  The percentage is modelled over the rationals. -/
structure CompletionStats where
  total_tasks : Nat
  completed_tasks : Nat
  completion_percentage : ℚ
  completed_weeks : Nat
  current_week : Int

/-- Modelled from the spec: the stats computation of `backend/main.py` (absent
from the source tree) - `percentage = completed_tasks / total_tasks * 100`,
defined as 0 when `total_tasks` is 0. -/
def planStats (tasks : List TaskRow) (weeks : Int) : CompletionStats :=
  let total := tasks.length
  let comp := (tasks.filter (fun t => t.is_completed)).length
  { total_tasks := total
    completed_tasks := comp
    completion_percentage := if total = 0 then 0 else (comp : ℚ) / (total : ℚ) * 100
    completed_weeks := completedWeeksCount tasks weeks
    current_week := currentWeek tasks weeks }

/-- The not-found error of the task endpoints. -/
inductive ApiError where
  | notFound
deriving DecidableEq

/-- Modelled from the spec: the completion update applied to one task row -
setting completed=true stamps `completed_at` with the current time, setting
completed=false clears it to null. -/
def setCompletion (t : TaskRow) (completed : Bool) (now : Nat) : TaskRow :=
  if completed then { t with is_completed := true, completed_at := some now }
  else { t with is_completed := false, completed_at := none }

/-- Modelled from the spec: the toggle endpoint `PUT
/api/study-plans/(plan_id)/tasks/(task_id)` of `backend/main.py` (absent from
the source tree).  The plan is looked up with the ownership filter of
`get_study_plan_by_id` quoted in ARCHITECTURE.md (`WHERE id = %s AND user_id =
%s`); the task must belong to that plan.  On any failure the task table is
returned unchanged together with `NotFoundError`. -/
def toggleTask (plans : List PlanRow) (tasks : List TaskRow) (planId uid taskId : Nat)
    (completed : Bool) (now : Nat) : List TaskRow × Except ApiError TaskRow :=
  match plans.find? (fun p => p.id = planId && p.user_id = uid) with
  | none => (tasks, .error .notFound)
  | some _ =>
    match tasks.find? (fun t => t.id = taskId && t.study_plan_id = planId) with
    | none => (tasks, .error .notFound)
    | some t =>
      let t2 := setCompletion t completed now
      (tasks.map (fun u => if u.id = taskId && u.study_plan_id = planId then t2 else u),
        .ok t2)

/-- The opening brace character. -/
def lbrace : Char := Char.ofNat 123

/-- The closing brace character. -/
def rbrace : Char := Char.ofNat 125

/-- Modelled from the spec: one step of the brace-depth scanning state machine
of `extract_json_from_output` (`backend/crew_manager.py`, absent from the
source tree).  The state is (nesting depth, inside-string, escaped). -/
def scanStep (st : Nat × Bool × Bool) (c : Char) : Nat × Bool × Bool :=
  if st.2.2 then (st.1, st.2.1, false)
  else if st.2.1 then
    if c = '\\' then (st.1, true, true)
    else if c = '"' then (st.1, false, false)
    else (st.1, true, false)
  else if c = '"' then (st.1, true, false)
  else if c = lbrace then (st.1 + 1, false, false)
  else if c = rbrace then (st.1 - 1, false, false)
  else (st.1, false, false)

/-- Whether character `c` closes the object in state `st`: a closing brace
outside any string, not escaped, at depth 1. -/
def closesObj (st : Nat × Bool × Bool) (c : Char) : Bool :=
  !st.2.1 && !st.2.2 && c = rbrace && st.1 = 1

/-- Modelled from the spec: the character-by-character scan - accumulate
characters, stepping the state machine, until the matching closing brace of
the object is reached; fail if the input ends first. -/
def scanObj (acc : List Char) (st : Nat × Bool × Bool) : List Char → Option (List Char)
  | [] => none
  | c :: cs =>
    if closesObj st c then some (acc ++ [ c ])
    else scanObj (acc ++ [ c ]) (scanStep st c) cs

/-- Whether a character list contains no opening brace. -/
def braceFree (p : List Char) : Bool :=
  p.all (fun c => !(c = lbrace))

/-- Modelled from the spec: `extract_json_from_output` - scan for the first
opening brace, then run the depth-tracking scan; `none` models
`ExtractionError`. -/
def extractJson (s : List Char) : Option (List Char) :=
  match s.dropWhile (fun c => !(c = lbrace)) with
  | [] => none
  | c :: cs => scanObj [ c ] (1, false, false) cs

/-- A well-formed object: starts with an opening brace and the scanner closes
it exactly at its last character (so no proper prefix is already balanced). -/
def wellFormedJson (j : List Char) : Bool :=
  match j with
  | [] => false
  | c :: cs => decide (c = lbrace) && decide (scanObj [ c ] (1, false, false) cs = some j)

/-! Concrete fixtures used by witnesses and counterexamples. -/

/-- A sample goal string. -/
def gRust : String := "learn rust"

/-- The same goal with different capitalization. -/
def gRustCaps : String := "Learn Rust"

/-- A sample saved plan row owned by user 7. -/
def demoPlanRow : PlanRow := ⟨1, 7, gRust, 4⟩

/-- A sample valid two-week plan. -/
def demoPlan : StudyPlan :=
  ⟨"learn", 2,
    [⟨1, "w1", ["o1"], [], ["t1", "t2"]⟩,
     ⟨2, "w2", [], [], ["t3"]⟩]⟩

/-- Sample task rows for plan 5: one completed, one not. -/
def demoTasks : List TaskRow :=
  [⟨10, 5, 1, 1, "a", true, some 3⟩, ⟨11, 5, 1, 2, "b", false, none⟩]

/-! ## C10 - per-week progress in the plan detail view -/

/-- C10: for every week card, the per-week progress equals
`completedCount / tasks.length * 100` when the week has at least one task and
`0` when the task list is empty, so the computation never divides by zero. -/
theorem weekCard_progress_correct :
    ∀ tasks : List TaskRow,
      (tasks ≠ [] →
        weekProgress tasks =
          ((tasks.filter (fun t => t.is_completed)).length : ℚ) / (tasks.length : ℚ) * 100)
      ∧ (tasks = [] → weekProgress tasks = 0) := by
  intro tasks
  refine ⟨fun h => ?_, fun h => ?_⟩
  · have hl : tasks.length > 0 := List.length_pos.mpr h
    simp only [weekProgress, if_pos hl]
  · subst h
    simp [weekProgress]

/-- C10 witness: the progress formula evaluated on a concrete two-task week
(one task completed) and on the empty week. -/
theorem weekCard_progress_witness :
    weekProgress demoTasks =
      ((demoTasks.filter (fun t => t.is_completed)).length : ℚ) / (demoTasks.length : ℚ) * 100
    ∧ weekProgress [] = 0 :=
  ⟨(weekCard_progress_correct demoTasks).1 (by decide),
   (weekCard_progress_correct []).2 rfl⟩

/-! ## C8 - completion timestamps -/

/-- C8: setting completed=true stamps `completed_at` with the current time
(re-setting true again refreshes it), and setting completed=false clears
`completed_at` to null. -/
theorem toggle_stamps_completedAt :
    ∀ (t : TaskRow) (now now2 : Nat),
      (setCompletion t true now).is_completed = true
      ∧ (setCompletion t true now).completed_at = some now
      ∧ (setCompletion (setCompletion t true now) true now2).completed_at = some now2
      ∧ (setCompletion t false now).is_completed = false
      ∧ (setCompletion t false now).completed_at = none := by
  intro t now now2
  simp [setCompletion]

/-! ## C6 - completion percentage -/

/-- C6: the completion statistics compute the percentage as
`completed_tasks / total_tasks * 100`, and report 0 when `total_tasks` is 0,
never a division-by-zero error. -/
theorem stats_percentage_correct :
    ∀ (tasks : List TaskRow) (weeks : Int),
      ((planStats tasks weeks).total_tasks = 0 →
        (planStats tasks weeks).completion_percentage = 0)
      ∧ ((planStats tasks weeks).total_tasks ≠ 0 →
        (planStats tasks weeks).completion_percentage =
          ((planStats tasks weeks).completed_tasks : ℚ) /
            ((planStats tasks weeks).total_tasks : ℚ) * 100) := by
  intro tasks weeks
  refine ⟨fun h => ?_, fun h => ?_⟩
  · simp only [planStats] at h ⊢
    simp [h]
  · simp only [planStats] at h ⊢
    simp [h]

/-- C6 witness: percentage of a plan with zero tasks is 0 and of a concrete
two-task plan with one completion is `1 / 2 * 100`. -/
theorem stats_percentage_witness :
    (planStats [] 3).completion_percentage = 0
    ∧ (planStats demoTasks 1).completion_percentage =
        ((planStats demoTasks 1).completed_tasks : ℚ) /
          ((planStats demoTasks 1).total_tasks : ℚ) * 100 :=
  ⟨(stats_percentage_correct [] 3).1 rfl,
   (stats_percentage_correct demoTasks 1).2 (by decide)⟩

/-! ## C1 - the replace flow -/

/-- C1 counterexample: the replace flow is not atomic.  Starting from a state
where owner 7 holds plan 1 for the (goal, weeks) slot, running
`handleConfirmReplace` whose save call fails leaves the owner with no plan at
all for that slot - the delete took effect although the insert did not. -/
theorem replace_not_atomic_cex :
    ownerHasSlot [demoPlanRow] 7 gRust 4 = true
    ∧ handleConfirmReplace [demoPlanRow] 7 1 gRust 4 2 false = []
    ∧ ownerHasSlot (handleConfirmReplace [demoPlanRow] 7 1 gRust 4 2 false) 7 gRust 4 = false := by
  decide

/-- C1 (amended): the replace flow deletes the old plan and then inserts the
new one as two separate operations.  After a replace whose save call fails,
the old plan is gone, and if the old plan was the owner's only plan for the
slot the owner is left with no plan for that slot at all; a replace whose save
call succeeds always leaves the owner with a plan for the slot. -/
theorem replace_delete_then_save :
    ∀ (db : List PlanRow) (uid pid : Nat) (g : String) (w : Int) (fid : Nat),
      (∀ p ∈ handleConfirmReplace db uid pid g w fid false, !(p.id = pid && p.user_id = uid))
      ∧ ((∀ p ∈ db, slotMatch p uid g w = true → p.id = pid ∧ p.user_id = uid) →
          ownerHasSlot (handleConfirmReplace db uid pid g w fid false) uid g w = false)
      ∧ ownerHasSlot (handleConfirmReplace db uid pid g w fid true) uid g w = true := by
  intro db uid pid g w fid
  have hrf : handleConfirmReplace db uid pid g w fid false = delete_study_plan db pid uid := rfl
  have hrt : handleConfirmReplace db uid pid g w fid true
      = (save_plan (delete_study_plan db pid uid) uid g w fid).1 := rfl
  refine ⟨?_, ?_, ?_⟩
  · intro p hp
    rw [hrf] at hp
    simp only [delete_study_plan] at hp
    exact (List.mem_filter.mp hp).2
  · intro h
    rw [hrf]
    simp only [ownerHasSlot, delete_study_plan]
    rw [List.any_eq_false]
    intro p hp hmatch
    have hmem := List.mem_filter.mp hp
    have h2 := h p hmem.1 hmatch
    have hflag := hmem.2
    simp [h2.1, h2.2] at hflag
  · rw [hrt]
    simp only [save_plan]
    cases hfind : check_existing_plan (delete_study_plan db pid uid) uid g w with
    | some p =>
      simp only [check_existing_plan] at hfind
      have hm : p ∈ delete_study_plan db pid uid := List.mem_of_find?_eq_some hfind
      have hs : slotMatch p uid g w = true := by
        have h := List.find?_some hfind
        simpa using h
      simp only [ownerHasSlot, List.any_eq_true]
      exact ⟨p, hm, hs⟩
    | none =>
      simp only [ownerHasSlot, List.any_eq_true]
      refine ⟨⟨fid, uid, g, w⟩, List.mem_append_right _ (List.mem_singleton.mpr rfl), ?_⟩
      simp [slotMatch]

/-- C1 witness for the amended claim: on the concrete one-plan state, a failed
replace leaves the slot empty and a successful replace leaves it filled. -/
theorem replace_delete_then_save_witness :
    ownerHasSlot (handleConfirmReplace [demoPlanRow] 7 1 gRust 4 2 false) 7 gRust 4 = false
    ∧ ownerHasSlot (handleConfirmReplace [demoPlanRow] 7 1 gRust 4 2 true) 7 gRust 4 = true :=
  ⟨(replace_delete_then_save [demoPlanRow] 7 1 gRust 4 2).2.1 (by decide),
   (replace_delete_then_save [demoPlanRow] 7 1 gRust 4 2).2.2⟩

/-! ## C3 - duplicate detection -/

/-- The slot predicate, spelled out. -/
theorem slotMatch_iff (p : PlanRow) (uid : Nat) (g : String) (w : Int) :
    slotMatch p uid g w = true ↔
      p.user_id = uid ∧ lowerKey p.goal = lowerKey g ∧ p.weeks = w := by
  simp [slotMatch, and_assoc]

/-- Goals with the same case-insensitive key drive the same duplicate check. -/
theorem slotMatch_congr (p : PlanRow) (uid : Nat) (g g2 : String) (w : Int)
    (h : lowerKey g2 = lowerKey g) : slotMatch p uid g2 w = slotMatch p uid g w := by
  simp [slotMatch, h]

/-- `find?` skips a list in which nothing satisfies the test. -/
theorem find?_append_of_none {α : Type} (p : α → Bool) (l1 l2 : List α)
    (h : l1.find? p = none) : (l1 ++ l2).find? p = l2.find? p := by
  induction l1 with
  | nil => simp
  | cons a l ih =>
    cases hpa : p a with
    | true => rw [List.find?_cons_of_pos _ hpa] at h; exact absurd h (by simp)
    | false =>
      rw [List.find?_cons_of_neg _ (by simp [hpa])] at h
      rw [List.cons_append, List.find?_cons_of_neg _ (by simp [hpa])]
      exact ih h

/-- C3: the duplicate check matches an existing saved plan exactly when the
goals agree case-insensitively and the week counts agree exactly, scoped to
the owner; saving the same (case-insensitive goal, weeks) slot a second time
returns the original plan's id with the duplicate flag set and inserts no
second row. -/
theorem duplicate_check_case_insensitive :
    ∀ (db : List PlanRow) (uid : Nat) (g g2 : String) (w : Int) (fid fid2 : Nat),
      (∀ p, check_existing_plan db uid g w = some p →
          p ∈ db ∧ p.user_id = uid ∧ lowerKey p.goal = lowerKey g ∧ p.weeks = w)
      ∧ (check_existing_plan db uid g w = none ↔
          ∀ p ∈ db, ¬ (p.user_id = uid ∧ lowerKey p.goal = lowerKey g ∧ p.weeks = w))
      ∧ (check_existing_plan db uid g w = none → lowerKey g2 = lowerKey g →
          (save_plan (save_plan db uid g w fid).1 uid g2 w fid2).2 = ⟨fid, true⟩
          ∧ (save_plan (save_plan db uid g w fid).1 uid g2 w fid2).1
              = (save_plan db uid g w fid).1) := by
  intro db uid g g2 w fid fid2
  refine ⟨?_, ?_, ?_⟩
  · intro p h
    simp only [check_existing_plan] at h
    refine ⟨List.mem_of_find?_eq_some h, ?_⟩
    have hs := List.find?_some h
    exact (slotMatch_iff p uid g w).mp (by simpa using hs)
  · simp only [check_existing_plan, List.find?_eq_none, slotMatch_iff]
  · intro hnone hg2
    have hsave1 : (save_plan db uid g w fid).1 = db ++ [⟨fid, uid, g, w⟩] := by
      simp only [save_plan, hnone]
    have hpred : (fun p => slotMatch p uid g2 w) = (fun p => slotMatch p uid g w) :=
      funext fun p => slotMatch_congr p uid g g2 w hg2
    have hfind2 : check_existing_plan (db ++ [⟨fid, uid, g, w⟩]) uid g2 w
        = some ⟨fid, uid, g, w⟩ := by
      simp only [check_existing_plan] at hnone ⊢
      rw [hpred, find?_append_of_none _ _ _ hnone]
      simp [slotMatch]
    rw [← hsave1] at hfind2
    generalize hX : (save_plan db uid g w fid).1 = db1 at hfind2 ⊢
    constructor
    · simp only [save_plan, hfind2]
    · simp only [save_plan, hfind2]

/-- C3 witness: on an empty store, saving (goal, 4) then saving the same goal
with different capitalization reports a duplicate with the original id and
leaves the store unchanged. -/
theorem duplicate_check_witness :
    (save_plan (save_plan [] 7 gRust 4 1).1 7 gRustCaps 4 2).2 = ⟨1, true⟩
    ∧ (save_plan (save_plan [] 7 gRust 4 1).1 7 gRustCaps 4 2).1
        = (save_plan [] 7 gRust 4 1).1 :=
  (duplicate_check_case_insensitive [] 7 gRust gRustCaps 4 1 2).2.2 (by decide) (by decide)

/-! ## C9 - toggle authorization -/

/-- A second saved plan row, with id 5, owned by user 7. -/
def demoPlanRow2 : PlanRow := ⟨5, 7, "algebra", 2⟩

/-- C9: the toggle succeeds exactly when the addressed task belongs to a plan
owned by the requesting owner; when the plan or task is missing, or the plan
belongs to another owner, the result is `NotFoundError` and the task table is
unchanged. -/
theorem toggle_requires_ownership :
    ∀ (plans : List PlanRow) (tasks : List TaskRow) (planId uid taskId : Nat)
      (completed : Bool) (now : Nat),
      ((∃ r, (toggleTask plans tasks planId uid taskId completed now).2 = .ok r) ↔
        ((∃ p ∈ plans, p.id = planId ∧ p.user_id = uid)
          ∧ ∃ t ∈ tasks, t.id = taskId ∧ t.study_plan_id = planId))
      ∧ ((toggleTask plans tasks planId uid taskId completed now).2 = .error .notFound →
          (toggleTask plans tasks planId uid taskId completed now).1 = tasks) := by
  intro plans tasks planId uid taskId completed now
  cases hp : plans.find? (fun p => p.id = planId && p.user_id = uid) with
  | none =>
    have hres : toggleTask plans tasks planId uid taskId completed now
        = (tasks, .error .notFound) := by
      simp only [toggleTask, hp]
    rw [hres]
    constructor
    · constructor
      · rintro ⟨r, h⟩
        exact absurd h (by simp)
      · rintro ⟨⟨p, hpm, h1, h2⟩, _⟩
        have hn := List.find?_eq_none.mp hp p hpm
        simp [h1, h2] at hn
    · intro _
      rfl
  | some p0 =>
    cases ht : tasks.find? (fun t => t.id = taskId && t.study_plan_id = planId) with
    | none =>
      have hres : toggleTask plans tasks planId uid taskId completed now
          = (tasks, .error .notFound) := by
        simp only [toggleTask, hp, ht]
      rw [hres]
      constructor
      · constructor
        · rintro ⟨r, h⟩
          exact absurd h (by simp)
        · rintro ⟨_, ⟨t, htm, h1, h2⟩⟩
          have hn := List.find?_eq_none.mp ht t htm
          simp [h1, h2] at hn
      · intro _
        rfl
    | some t0 =>
      have hres : toggleTask plans tasks planId uid taskId completed now
          = (tasks.map (fun u => if u.id = taskId && u.study_plan_id = planId
              then setCompletion t0 completed now else u),
             .ok (setCompletion t0 completed now)) := by
        simp only [toggleTask, hp, ht]
      rw [hres]
      constructor
      · constructor
        · intro _
          refine ⟨⟨p0, List.mem_of_find?_eq_some hp, ?_⟩,
                  ⟨t0, List.mem_of_find?_eq_some ht, ?_⟩⟩
          · have hb := List.find?_some hp
            simpa using hb
          · have hb := List.find?_some ht
            simpa using hb
        · intro _
          exact ⟨setCompletion t0 completed now, rfl⟩
      · intro h
        exact absurd h (by simp)

/-- C9 witness: the toggle errors and leaves the empty table unchanged when
nothing matches, and succeeds on a concrete owned plan and task. -/
theorem toggle_requires_ownership_witness :
    (toggleTask [] [] 1 2 3 true 0).1 = ([] : List TaskRow)
    ∧ ∃ r, (toggleTask [demoPlanRow2] demoTasks 5 7 10 true 0).2 = .ok r :=
  ⟨(toggle_requires_ownership [] [] 1 2 3 true 0).2 rfl,
   (toggle_requires_ownership [demoPlanRow2] demoTasks 5 7 10 true 0).1.mpr (by decide)⟩

/-! ## C4 - idempotent materialization -/

/-- Inserting a row makes its key present. -/
theorem hasKey_insertTask_self (db : List TaskRow) (t : TaskRow) :
    hasKey (insertTask db t) (taskKey t) = true := by
  unfold insertTask
  cases h : hasKey db (taskKey t) with
  | true => simpa using h
  | false =>
    simp only [Bool.false_eq_true, if_false, hasKey, List.any_append]
    simp [hasKey] at h ⊢

/-- Inserting preserves any key already present. -/
theorem hasKey_insertTask_mono (db : List TaskRow) (t : TaskRow)
    (k : Nat × Int × Nat × String) (h : hasKey db k = true) :
    hasKey (insertTask db t) k = true := by
  unfold insertTask
  cases hk : hasKey db (taskKey t) with
  | true => simpa using h
  | false =>
    simp only [Bool.false_eq_true, if_false, hasKey, List.any_append]
    simp only [hasKey] at h
    simp [h]

/-- Folding inserts preserves any key already present. -/
theorem hasKey_foldl_mono (ts : List TaskRow) (db : List TaskRow)
    (k : Nat × Int × Nat × String) (h : hasKey db k = true) :
    hasKey (ts.foldl insertTask db) k = true := by
  induction ts generalizing db with
  | nil => exact h
  | cons t rest ih => exact ih _ (hasKey_insertTask_mono db t k h)

/-- After folding a batch of inserts, every key of the batch is present. -/
theorem hasKey_foldl_mem (ts : List TaskRow) :
    ∀ (db : List TaskRow) (t : TaskRow), t ∈ ts →
      hasKey (ts.foldl insertTask db) (taskKey t) = true := by
  induction ts with
  | nil => intro db t h; cases h
  | cons u rest ih =>
    intro db t h
    rcases List.mem_cons.mp h with h1 | h2
    · subst h1
      exact hasKey_foldl_mono rest _ _ (hasKey_insertTask_self db t)
    · exact ih _ _ h2

/-- Inserting rows whose keys are all present is a no-op. -/
theorem foldl_insertTask_of_present (ts : List TaskRow) (db : List TaskRow)
    (h : ∀ t ∈ ts, hasKey db (taskKey t) = true) : ts.foldl insertTask db = db := by
  induction ts with
  | nil => rfl
  | cons t rest ih =>
    have ht : insertTask db t = db := by
      unfold insertTask
      rw [if_pos (h t (List.mem_cons_self t rest))]
    simp only [List.foldl_cons, ht]
    exact ih fun u hu => h u (List.mem_cons_of_mem t hu)

/-- An insert keeps the key column duplicate-free. -/
theorem nodup_keys_insertTask (db : List TaskRow) (t : TaskRow)
    (h : (db.map taskKey).Nodup) : ((insertTask db t).map taskKey).Nodup := by
  unfold insertTask
  cases hk : hasKey db (taskKey t) with
  | true => simpa using h
  | false =>
    simp only [Bool.false_eq_true, if_false, List.map_append, List.map_cons, List.map_nil]
    rw [List.nodup_append]
    refine ⟨h, List.nodup_singleton _, ?_⟩
    intro k hk1 hk2
    simp only [List.mem_singleton] at hk2
    subst hk2
    simp only [hasKey, List.any_eq_false] at hk
    rcases List.mem_map.mp hk1 with ⟨u, hu, hku⟩
    exact absurd hku (by simpa using hk u hu)

/-- Folding inserts keeps the key column duplicate-free. -/
theorem nodup_keys_foldl (ts : List TaskRow) (db : List TaskRow)
    (h : (db.map taskKey).Nodup) : ((ts.foldl insertTask db).map taskKey).Nodup := by
  induction ts generalizing db with
  | nil => exact h
  | cons t rest ih => exact ih _ (nodup_keys_insertTask db t h)

/-- C4: task rows stay unique under the key
`(plan_id, week_number, day_number, text)`, and re-running materialization for
the same saved plan inserts nothing new, so materialization is idempotent. -/
theorem materialize_idempotent :
    ∀ (plan : StudyPlan) (pid : Nat) (db : List TaskRow),
      materialize plan pid (materialize plan pid db) = materialize plan pid db
      ∧ ((db.map taskKey).Nodup → ((materialize plan pid db).map taskKey).Nodup) := by
  intro plan pid db
  constructor
  · unfold materialize
    exact foldl_insertTask_of_present _ _ fun t ht => hasKey_foldl_mem _ _ _ ht
  · intro h
    unfold materialize
    exact nodup_keys_foldl _ _ h

/-- C4 witness: on the empty table, materializing the concrete two-week plan
twice equals materializing it once, and the resulting keys are duplicate-free. -/
theorem materialize_idempotent_witness :
    materialize demoPlan 5 (materialize demoPlan 5 []) = materialize demoPlan 5 []
    ∧ ((materialize demoPlan 5 []).map taskKey).Nodup :=
  ⟨(materialize_idempotent demoPlan 5 []).1,
   (materialize_idempotent demoPlan 5 []).2 (by decide)⟩

/-! ## C7 - the current week -/

/-- The first-incomplete-week search returns nothing exactly when no listed
week has an incomplete task. -/
theorem firstIncompleteWeek_eq_none (tasks : List TaskRow) (l : List Int) :
    firstIncompleteWeek tasks l = none ↔ ∀ w ∈ l, weekIncomplete tasks w = false := by
  induction l with
  | nil => simp [firstIncompleteWeek]
  | cons w ws ih =>
    by_cases h : weekIncomplete tasks w = true
    · simp [firstIncompleteWeek, h]
    · have h2 : weekIncomplete tasks w = false := by simpa using h
      simp [firstIncompleteWeek, h2, ih]

/-- A found week is a listed week with an incomplete task. -/
theorem firstIncompleteWeek_eq_some (tasks : List TaskRow) (l : List Int) (w : Int)
    (h : firstIncompleteWeek tasks l = some w) :
    w ∈ l ∧ weekIncomplete tasks w = true := by
  induction l with
  | nil => simp [firstIncompleteWeek] at h
  | cons v ws ih =>
    by_cases hv : weekIncomplete tasks v = true
    · simp only [firstIncompleteWeek, if_pos hv, Option.some.injEq] at h
      subst h
      exact ⟨List.mem_cons_self v ws, hv⟩
    · simp only [firstIncompleteWeek, if_neg hv] at h
      have hr := ih h
      exact ⟨List.mem_cons_of_mem v hr.1, hr.2⟩

/-- On a strictly increasing list, every listed week below the found week has
no incomplete task. -/
theorem firstIncompleteWeek_min (tasks : List TaskRow) (l : List Int)
    (hl : l.Pairwise (· < ·)) (w : Int) (h : firstIncompleteWeek tasks l = some w) :
    ∀ v ∈ l, v < w → weekIncomplete tasks v = false := by
  induction l with
  | nil => simp [firstIncompleteWeek] at h
  | cons u ws ih =>
    have hpw := List.pairwise_cons.mp hl
    intro v hv hvw
    by_cases hu : weekIncomplete tasks u = true
    · simp only [firstIncompleteWeek, if_pos hu, Option.some.injEq] at h
      subst h
      rcases List.mem_cons.mp hv with h1 | h2
      · omega
      · exact absurd (hpw.1 v h2) (by omega)
    · simp only [firstIncompleteWeek, if_neg hu] at h
      rcases List.mem_cons.mp hv with h1 | h2
      · subst h1
        simpa using hu
      · exact ih hpw.2 h v h2 hvw

/-- Membership in a consecutive week range. -/
theorem mem_weeksFrom (n : Nat) : ∀ (k w : Int), w ∈ weeksFrom k n ↔ k ≤ w ∧ w < k + n := by
  induction n with
  | zero => intro k w; simp [weeksFrom]
  | succ m ih =>
    intro k w
    simp only [weeksFrom, List.mem_cons, ih (k + 1) w]
    constructor
    · rintro (rfl | ⟨h1, h2⟩)
      · exact ⟨by omega, by omega⟩
      · exact ⟨by omega, by omega⟩
    · rintro ⟨h1, h2⟩
      by_cases hk : w = k
      · exact Or.inl hk
      · exact Or.inr ⟨by omega, by omega⟩

/-- Membership in the week range `1..weeks`. -/
theorem mem_weeksList (n : Int) (w : Int) : w ∈ weeksList n ↔ 1 ≤ w ∧ w ≤ n := by
  rw [weeksList, mem_weeksFrom]
  omega

/-- Consecutive week ranges are strictly increasing. -/
theorem weeksFrom_pairwise (n : Nat) : ∀ k : Int, (weeksFrom k n).Pairwise (· < ·) := by
  induction n with
  | zero => intro k; simp [weeksFrom]
  | succ m ih =>
    intro k
    rw [weeksFrom, List.pairwise_cons]
    refine ⟨fun v hv => ?_, ih (k + 1)⟩
    have h := (mem_weeksFrom m (k + 1) v).mp hv
    omega

/-- The week range is strictly increasing. -/
theorem weeksList_pairwise (n : Int) : (weeksList n).Pairwise (· < ·) :=
  weeksFrom_pairwise n.toNat 1

/-- C7: the computed `current_week` is the lowest week of `1..weeks` that
contains an incomplete task; when no week does (in particular when every task
is completed) it equals `weeks + 1`. -/
theorem stats_currentWeek_correct :
    ∀ (tasks : List TaskRow) (weeks : Int),
      ((∀ w ∈ weeksList weeks, weekIncomplete tasks w = false) ↔
        (planStats tasks weeks).current_week = weeks + 1)
      ∧ (∀ w ∈ weeksList weeks, weekIncomplete tasks w = true →
          weekIncomplete tasks ((planStats tasks weeks).current_week) = true
          ∧ (planStats tasks weeks).current_week ≤ w)
      ∧ ((∀ t ∈ tasks, t.is_completed = true) →
          (planStats tasks weeks).current_week = weeks + 1) := by
  intro tasks weeks
  have hcw : (planStats tasks weeks).current_week = currentWeek tasks weeks := rfl
  rw [hcw]
  refine ⟨⟨?_, ?_⟩, ?_, ?_⟩
  · intro h
    unfold currentWeek
    rw [(firstIncompleteWeek_eq_none tasks _).mpr h]
    rfl
  · intro h
    cases hf : firstIncompleteWeek tasks (weeksList weeks) with
    | none => exact (firstIncompleteWeek_eq_none tasks _).mp hf
    | some v =>
      have hm := firstIncompleteWeek_eq_some tasks _ v hf
      have hv : v ≤ weeks := ((mem_weeksList weeks v).mp hm.1).2
      unfold currentWeek at h
      rw [hf] at h
      simp only [Option.getD_some] at h
      exact absurd h (by omega)
  · intro w hw hwinc
    cases hf : firstIncompleteWeek tasks (weeksList weeks) with
    | none =>
      have h0 := (firstIncompleteWeek_eq_none tasks _).mp hf w hw
      rw [h0] at hwinc
      cases hwinc
    | some v =>
      have hm := firstIncompleteWeek_eq_some tasks _ v hf
      have hcv : currentWeek tasks weeks = v := by
        unfold currentWeek
        rw [hf]
        rfl
      rw [hcv]
      refine ⟨hm.2, ?_⟩
      by_contra hlt
      push_neg at hlt
      have h0 := firstIncompleteWeek_min tasks _ (weeksList_pairwise weeks) v hf w hw hlt
      rw [h0] at hwinc
      cases hwinc
  · intro h
    have hall : ∀ w ∈ weeksList weeks, weekIncomplete tasks w = false := by
      intro w hw
      unfold weekIncomplete
      rw [List.any_eq_false]
      intro t ht
      simp [h t ht]
    unfold currentWeek
    rw [(firstIncompleteWeek_eq_none tasks _).mpr hall]
    rfl

/-- C7 witness: on the concrete tasks with an incomplete task in week 1 the
current week is at most 1, and a three-week plan with no tasks reports
`weeks + 1`. -/
theorem stats_currentWeek_witness :
    (planStats demoTasks 1).current_week ≤ 1
    ∧ (planStats [] 3).current_week = 3 + 1 :=
  ⟨((stats_currentWeek_correct demoTasks 1).2.1 1 (by decide) (by decide)).2,
   (stats_currentWeek_correct [] 3).1.mp (by decide)⟩

/-! ## C2 - validated plans have contiguous weeks -/

/-- C2: for every request with weeks in [1,52], a plan that passes validation
is returned unchanged (never coerced, dropped, or reordered) and has exactly
`weeks` milestones whose week numbers form the duplicate-free contiguous set
`{1..weeks}`; any other structured object is rejected with a
`ValidationError` (the result is `.error`, the negation of the success case
proved here). -/
theorem validatePlan_contiguous_weeks :
    (∀ (req : Int) (p q : StudyPlan), 1 ≤ req → req ≤ 52 →
      validatePlan req p = .ok q →
      q = p ∧ p.weeks = req ∧ ¬ p.goal = ""
      ∧ (planWeeks p).Nodup
      ∧ (planWeeks p).toFinset = Finset.Icc 1 req
      ∧ p.milestones.length = req.toNat)
    ∧ (∀ (req : Int) (p : StudyPlan),
      ¬ ((planWeeks p).Nodup ∧ (planWeeks p).toFinset = Finset.Icc 1 p.weeks) →
      ∃ e, validatePlan req p = .error e) := by
  constructor
  · intro req p q h1 h52 hv
    unfold validatePlan at hv
    split_ifs at hv with hg hw hm hr hc
    all_goals cases hv
    have hweq : p.weeks = req := not_not.mp hw
    have hnd := hc.1
    have hset : (planWeeks p).toFinset = Finset.Icc 1 req := by
      rw [hc.2, hweq]
    have hcard : (planWeeks p).length = req.toNat := by
      have h2 := List.toFinset_card_of_nodup hnd
      rw [hset, Int.card_Icc] at h2
      omega
    have hlen : p.milestones.length = req.toNat := by
      have h3 : (planWeeks p).length = p.milestones.length := by
        simp [planWeeks]
      omega
    exact ⟨rfl, hweq, hg, hnd, hset, hlen⟩
  · intro req p hbad
    unfold validatePlan
    split_ifs with hg hw hm hr
    all_goals exact ⟨_, rfl⟩

/-- A plan whose milestone weeks skip week 2: it violates contiguity. -/
def demoBadPlan : StudyPlan :=
  ⟨"learn", 2, [⟨1, "w1", [], [], ["t1"]⟩, ⟨3, "w3", [], [], ["t2"]⟩]⟩

/-- C2 witness: the concrete two-week plan passes validation unchanged with
the expected milestone count, and the plan skipping week 2 is rejected. -/
theorem validatePlan_contiguous_weeks_witness :
    validatePlan 2 demoPlan = .ok demoPlan
    ∧ demoPlan.milestones.length = (2 : Int).toNat
    ∧ ∃ e, validatePlan 2 demoBadPlan = .error e :=
  ⟨by decide,
   (validatePlan_contiguous_weeks.1 2 demoPlan demoPlan (by decide) (by decide)
      (by decide)).2.2.2.2.2,
   validatePlan_contiguous_weeks.2 2 demoBadPlan (by decide)⟩

/-! ## C5 - structured-object extraction -/

/-- A scan that closes within `t` ignores anything appended after `t`. -/
theorem scanObj_append (t : List Char) :
    ∀ (acc : List Char) (st : Nat × Bool × Bool) (s r : List Char),
      scanObj acc st t = some r → scanObj acc st (t ++ s) = some r := by
  induction t with
  | nil =>
    intro acc st s r h
    simp [scanObj] at h
  | cons c cs ih =>
    intro acc st s r h
    rw [List.cons_append]
    simp only [scanObj] at h ⊢
    by_cases hc : closesObj st c = true
    · rw [if_pos hc] at h ⊢
      exact h
    · rw [if_neg hc] at h ⊢
      exact ih _ _ _ _ h

/-- A successful scan closes exactly at the end of some input front segment,
and the result is the accumulator extended by that segment. -/
theorem scanObj_closed_front (t : List Char) :
    ∀ (acc : List Char) (st : Nat × Bool × Bool) (r : List Char),
      scanObj acc st t = some r →
      ∃ t1 t2, t = t1 ++ t2 ∧ r = acc ++ t1 ∧ scanObj acc st t1 = some r := by
  induction t with
  | nil =>
    intro acc st r h
    simp [scanObj] at h
  | cons c cs ih =>
    intro acc st r h
    simp only [scanObj] at h
    by_cases hc : closesObj st c = true
    · rw [if_pos hc] at h
      injection h with h2
      refine ⟨[ c ], cs, rfl, h2.symm, ?_⟩
      simp only [scanObj]
      rw [if_pos hc, h2]
    · rw [if_neg hc] at h
      rcases ih _ _ _ h with ⟨t1, t2, hsplit, hr, hscan⟩
      refine ⟨c :: t1, t2, ?_, ?_, ?_⟩
      · rw [hsplit, List.cons_append]
      · rw [hr]
        simp
      · simp only [scanObj]
        rw [if_neg hc]
        exact hscan

/-- Dropping while a test holds skips a front block that satisfies it all. -/
theorem dropWhile_braceFree (p : List Char) (l : List Char) (h : braceFree p = true) :
    List.dropWhile (fun c => !(c = lbrace)) (p ++ l)
      = List.dropWhile (fun c => !(c = lbrace)) l := by
  induction p with
  | nil => rfl
  | cons c cs ih =>
    have h2 := h
    simp only [braceFree, List.all_cons, Bool.and_eq_true] at h2
    rw [List.cons_append, List.dropWhile_cons, if_pos h2.1]
    exact ih h2.2

/-- Every element of the kept front block satisfies the test. -/
theorem takeWhile_all {α : Type} (pred : α → Bool) (t : List α) :
    (t.takeWhile pred).all pred = true := by
  induction t with
  | nil => rfl
  | cons a l ih =>
    rw [List.takeWhile_cons]
    by_cases hp : pred a = true
    · rw [if_pos hp]
      simp [hp, ih]
    · rw [if_neg hp]
      rfl

/-- The first character surviving a drop fails the test. -/
theorem dropWhile_head_not {α : Type} (pred : α → Bool) (t : List α) (c : α) (cs : List α)
    (h : t.dropWhile pred = c :: cs) : pred c = false := by
  induction t with
  | nil => simp at h
  | cons a l ih =>
    rw [List.dropWhile_cons] at h
    by_cases hp : pred a = true
    · rw [if_pos hp] at h
      exact ih h
    · rw [if_neg hp] at h
      injection h with h1 h2
      subst h1
      simpa using hp

/-- Extraction recovers a well-formed object embedded in arbitrary
brace-free leading prose and arbitrary trailing text. -/
theorem extractJson_recovers (p j s : List Char) (hp : braceFree p = true)
    (hj : wellFormedJson j = true) : extractJson (p ++ j ++ s) = some j := by
  cases j with
  | nil => simp [wellFormedJson] at hj
  | cons c cs =>
    simp only [wellFormedJson, Bool.and_eq_true, decide_eq_true_eq] at hj
    obtain ⟨hc, hscan⟩ := hj
    subst hc
    unfold extractJson
    rw [List.append_assoc, dropWhile_braceFree p _ hp, List.cons_append,
      List.dropWhile_cons, if_neg (by simp)]
    exact scanObj_append cs _ _ s _ hscan

/-- A successful extraction exhibits a brace-free front, a well-formed object
and a trailing remainder. -/
theorem extractJson_sound (t r : List Char) (h : extractJson t = some r) :
    ∃ p s, t = p ++ r ++ s ∧ braceFree p = true ∧ wellFormedJson r = true := by
  unfold extractJson at h
  cases hd : List.dropWhile (fun c => !(c = lbrace)) t with
  | nil =>
    rw [hd] at h
    cases h
  | cons c cs =>
    rw [hd] at h
    have hcb : c = lbrace := by
      have h0 := dropWhile_head_not _ t c cs hd
      simpa using h0
    subst hcb
    rcases scanObj_closed_front cs _ _ _ h with ⟨t1, t2, hsplit, hr, hscan⟩
    have hr2 : r = lbrace :: t1 := by
      rw [hr]
      rfl
    refine ⟨t.takeWhile (fun c => !(c = lbrace)), t2, ?_, ?_, ?_⟩
    · have ht : t.takeWhile (fun c => !(c = lbrace)) ++ t.dropWhile (fun c => !(c = lbrace)) = t :=
        List.takeWhile_append_dropWhile _ t
      rw [hr2]
      have hY : t.takeWhile (fun c => !(c = lbrace)) ++ (lbrace :: t1) ++ t2
          = t.takeWhile (fun c => !(c = lbrace)) ++ (lbrace :: (t1 ++ t2)) := by
        simp
      rw [hY, ← hsplit, ← hd]
      exact ht.symm
    · exact takeWhile_all _ t
    · have hs2 : scanObj [ lbrace ] (1, false, false) t1 = some (lbrace :: t1) := by
        rw [← hr2]
        exact hscan
      rw [hr2]
      simp [wellFormedJson, hs2]

/-- C5: extraction scans for the first opening brace and tracks nesting depth
character-by-character while respecting quoted strings, so a well-formed
object embedded in arbitrary prose is recovered exactly; when the text admits
no such balanced object the result is the extraction failure. -/
theorem extractJson_correct :
    (∀ p j s : List Char, braceFree p = true → wellFormedJson j = true →
        extractJson (p ++ j ++ s) = some j)
    ∧ (∀ t : List Char,
        (¬ ∃ p j s : List Char,
            t = p ++ j ++ s ∧ braceFree p = true ∧ wellFormedJson j = true) →
        extractJson t = none) := by
  constructor
  · exact extractJson_recovers
  · intro t hno
    cases he : extractJson t with
    | none => rfl
    | some r =>
      rcases extractJson_sound t r he with ⟨p, s, h1, h2, h3⟩
      exact absurd ⟨p, r, s, h1, h2, h3⟩ hno

/-- Leading prose with no opening brace. -/
def demoPre : List Char := "Here is your plan: ".toList

/-- A well-formed object with a nested object and a brace inside a quoted
string value. -/
def demoJson : List Char := "\x7b\"goal\": \"a \x7d b\", \"plan\": \x7b\"w\": 1\x7d\x7d".toList

/-- Trailing commentary. -/
def demoSuf : List Char := " Good luck!".toList

/-- Text with no opening brace at all. -/
def demoNoBrace : List Char := "no object here".toList

/-- C5 witness: the concrete embedded object (with a nested object and a
brace inside a string) is recovered exactly, and brace-free text fails. -/
theorem extractJson_correct_witness :
    extractJson (demoPre ++ demoJson ++ demoSuf) = some demoJson
    ∧ extractJson demoNoBrace = none :=
  ⟨extractJson_correct.1 demoPre demoJson demoSuf (by decide) (by decide),
   extractJson_correct.2 demoNoBrace (by
      rintro ⟨p, j, s, ht, hp, hj⟩
      cases j with
      | nil => simp [wellFormedJson] at hj
      | cons c cs =>
        simp only [wellFormedJson, Bool.and_eq_true, decide_eq_true_eq] at hj
        obtain ⟨hc, -⟩ := hj
        subst hc
        have hmem : lbrace ∈ demoNoBrace := by
          rw [ht]
          exact List.mem_append.mpr
            (Or.inl (List.mem_append.mpr (Or.inr (List.mem_cons_self _ _))))
        exact absurd hmem (by decide))⟩

end Cognit
